import Mathlib

/-
Verification of the namespace layer of memcache-namespaces
(src/python/nsmemcache.py).

The underlying memcache client is, per the spec, an external collaborator:
an abstract flat cache with primitives get / set / add / incr / decr /
delete over string keys.  We model it as an association list from keys to
entries; `set` conses a fresh binding (newer bindings shadow older ones),
`delete` removes every binding for the key.  Values are strings; the
counter values handled by incr are decimal renderings of naturals
(memcached treats such values as decimal integers).  The namespace layer
itself (`_get_key`, `ns_flush`, `ns_get`, `ns_set`, `ns_add`, `ns_incr`,
`ns_decr`, `ns_delete`) is translated directly from the Python source.
-/

/-- A stored cache entry: the value together with the ttl and
compress-threshold parameters that were passed through to the underlying
set/add primitive (the layer never interprets them). -/
structure Entry where
  val : String
  time : Nat
  minCompress : Nat
deriving DecidableEq

/-- Modelled from the spec: the underlying cache is a flat key-value store
(spec section 6).  Represented as an association list, newest binding
first. -/
abbrev Cache := List (String × Entry)

/-- Lookup of the full entry stored under a key. -/
def Cache.findE (c : Cache) (k : String) : Option Entry :=
  match c with
  | [] => none
  | p :: rest => if p.1 = k then some p.2 else Cache.findE rest k

/-- Modelled from the spec: get(key) returns the stored value or a
not-found sentinel (none). -/
def Cache.get (c : Cache) (k : String) : Option String :=
  (c.findE k).map Entry.val

/-- Unconditional store of an entry (newest binding shadows older ones). -/
def Cache.setE (c : Cache) (k : String) (e : Entry) : Cache :=
  (k, e) :: c

/-- Modelled from the spec: set(key, value, ttl, compressThreshold) always
succeeds and overwrites. -/
def Cache.set (c : Cache) (k v : String) (time minCompress : Nat) : Bool × Cache :=
  (true, c.setE k ⟨v, time, minCompress⟩)

/-- Modelled from the spec: add(key, value, ttl, compressThreshold)
succeeds only if the key does not already exist; this is the
race-resolution primitive. -/
def Cache.add (c : Cache) (k v : String) (time minCompress : Nat) : Bool × Cache :=
  match c.findE k with
  | some _ => (false, c)
  | none => (true, c.setE k ⟨v, time, minCompress⟩)

/-- The decimal digit characters used by the decimal rendering. -/
def digitChar (d : Nat) : Char :=
  if d = 0 then '0' else if d = 1 then '1' else if d = 2 then '2'
  else if d = 3 then '3' else if d = 4 then '4' else if d = 5 then '5'
  else if d = 6 then '6' else if d = 7 then '7' else if d = 8 then '8'
  else '9'

/-- Digits of a natural number in base 10, most significant first.  The
first argument is structural fuel; it is always called with enough fuel
(`decString` passes the number itself). -/
def decDigitsF : Nat → Nat → List Char
  | 0, n => [digitChar (n % 10)]
  | fuel + 1, n =>
      if n < 10 then [digitChar n]
      else decDigitsF fuel (n / 10) ++ [digitChar (n % 10)]

/-- Modelled from the spec: the decimal rendering of counter values as
stored by the underlying cache after incr/decr. -/
def decString (n : Nat) : String :=
  String.mk (decDigitsF n n)

/-- Modelled from the spec: the underlying cache parses a stored value as
a decimal integer for incr/decr, failing on non-numeric values. -/
def decParse? (s : String) : Option Nat :=
  if s.data ≠ [] ∧ s.data.all (fun c => c.isDigit) then
    some (s.data.foldl (fun a c => 10 * a + (c.toNat - 48)) 0)
  else none

/-- Modelled from the spec: incr(key, amount) returns the new numeric
value, or failure if the key is absent or the stored value is not numeric;
on success the new value is stored (ttl and compress threshold are kept). -/
def Cache.incr (c : Cache) (k : String) (amount : Nat) : Option Nat × Cache :=
  match c.findE k with
  | none => (none, c)
  | some e =>
      match decParse? e.val with
      | none => (none, c)
      | some n =>
          (some (n + amount),
           c.setE k ⟨decString (n + amount), e.time, e.minCompress⟩)

/-- Modelled from the spec: decr(key, amount) mirrors incr; memcached
floors the result at 0, which truncated subtraction models exactly. -/
def Cache.decr (c : Cache) (k : String) (amount : Nat) : Option Nat × Cache :=
  match c.findE k with
  | none => (none, c)
  | some e =>
      match decParse? e.val with
      | none => (none, c)
      | some n =>
          (some (n - amount),
           c.setE k ⟨decString (n - amount), e.time, e.minCompress⟩)

/-- Modelled from the spec: delete(key) removes the binding and reports
whether the key was present. -/
def Cache.delete (c : Cache) (k : String) : Bool × Cache :=
  ((c.findE k).isSome, c.filter (fun p => p.1 != k))

/-- Python string interpolation of an optional value: some s renders as s,
none renders as the text None (as the % operator does). -/
def pyStr : Option String → String
  | some s => s
  | none => "None"

/-- The control key holding a namespace version counter, from the source
expression defining ns_key. -/
def nsControlKey (ns : String) : String :=
  "__ns_" ++ ns

/-- The derived (effective) key shape produced by the source expression
returned from Client._get_key. -/
def effKey (ns v key : String) : String :=
  "__" ++ ns ++ "_" ++ v ++ "_" ++ key

/-- Client._get_key from the source: resolve the real key for a virtual
key in the given namespace, creating the version counter via add when it
is absent. -/
def _get_key (c : Cache) (ns key : String) : String × Cache :=
  let ns_key := "__ns_" ++ ns
  let r := c.add ns_key "1" 0 0
  let id := if r.1 then "1" else pyStr (r.2.get ns_key)
  ("__" ++ ns ++ "_" ++ id ++ "_" ++ key, r.2)

/-- Client.ns_flush from the source: incr the control key; when the result
is falsy (None, or the number 0) set the control key to 1.  Python stores
the integer 1, which the underlying cache renders as the string 1. -/
def ns_flush (c : Cache) (ns : String) : Cache :=
  let ns_key := "__ns_" ++ ns
  let r := c.incr ns_key 1
  match r.1 with
  | none => (r.2.set ns_key "1" 0 0).2
  | some m => if m = 0 then (r.2.set ns_key "1" 0 0).2 else r.2

/-- Client.ns_add from the source. -/
def ns_add (c : Cache) (ns key val : String) (time minCompress : Nat) : Bool × Cache :=
  let nk := _get_key c ns key
  nk.2.add nk.1 val time minCompress

/-- Client.ns_set from the source. -/
def ns_set (c : Cache) (ns key val : String) (time minCompress : Nat) : Bool × Cache :=
  let nk := _get_key c ns key
  nk.2.set nk.1 val time minCompress

/-- Client.ns_get from the source (the resolution step can create the
control key, so the resulting cache is returned as well). -/
def ns_get (c : Cache) (ns key : String) : Option String × Cache :=
  let nk := _get_key c ns key
  (nk.2.get nk.1, nk.2)

/-- Client.ns_incr from the source. -/
def ns_incr (c : Cache) (ns key : String) (amount : Nat) : Option Nat × Cache :=
  let nk := _get_key c ns key
  nk.2.incr nk.1 amount

/-- Client.ns_decr from the source. -/
def ns_decr (c : Cache) (ns key : String) (amount : Nat) : Option Nat × Cache :=
  let nk := _get_key c ns key
  nk.2.decr nk.1 amount

/-- Client.ns_delete from the source. -/
def ns_delete (c : Cache) (ns key : String) : Bool × Cache :=
  let nk := _get_key c ns key
  nk.2.delete nk.1

/-- One invocation of the public namespaced interface. -/
inductive Op where
  | opGet (ns key : String)
  | opSet (ns key val : String) (time minCompress : Nat)
  | opAdd (ns key val : String) (time minCompress : Nat)
  | opIncr (ns key : String) (amount : Nat)
  | opDecr (ns key : String) (amount : Nat)
  | opDelete (ns key : String)
  | opFlush (ns : String)
deriving DecidableEq

/-- The cache state after one public operation. -/
def runOp (c : Cache) : Op → Cache
  | Op.opGet ns key => (ns_get c ns key).2
  | Op.opSet ns key val t mc => (ns_set c ns key val t mc).2
  | Op.opAdd ns key val t mc => (ns_add c ns key val t mc).2
  | Op.opIncr ns key amount => (ns_incr c ns key amount).2
  | Op.opDecr ns key amount => (ns_decr c ns key amount).2
  | Op.opDelete ns key => (ns_delete c ns key).2
  | Op.opFlush ns => ns_flush c ns

/-- The cache state after a sequence of public operations. -/
def runOps (c : Cache) (ops : List Op) : Cache :=
  ops.foldl runOp c

/-- The version counter of a namespace read back as a number: the stored
control-key value parsed as a decimal integer. -/
def verNat (c : Cache) (ns : String) : Option Nat :=
  (c.get (nsControlKey ns)).bind decParse?

/-- Well-formed counter state for one namespace: the control key is absent
or holds the decimal rendering of a positive integer. -/
def ctrlWF (c : Cache) (ns : String) : Prop :=
  c.get (nsControlKey ns) = none ∨
    ∃ m, 1 ≤ m ∧ c.get (nsControlKey ns) = some (decString m)

lemma strExt {s t : String} (h : s.data = t.data) : s = t := by
  cases s; cases t; exact congrArg String.mk h

lemma strData_append (s t : String) : (s ++ t).data = s.data ++ t.data := by
  cases s; cases t; rfl

lemma nsControlKey_data (ns : String) :
    (nsControlKey ns).data = '_' :: '_' :: 'n' :: 's' :: '_' :: ns.data := by
  have h : ("__ns_" : String).data = ['_', '_', 'n', 's', '_'] := rfl
  simp [nsControlKey, strData_append, h]

lemma effKey_data (a b c : String) :
    (effKey a b c).data = '_' :: '_' :: (a.data ++ '_' :: (b.data ++ '_' :: c.data)) := by
  have h1 : ("_" : String).data = ['_'] := rfl
  have h2 : ("__" : String).data = ['_', '_'] := rfl
  simp [effKey, strData_append, h1, h2]

lemma count_nsControlKey (ns : String) :
    ((nsControlKey ns).data).count '_' = 3 + (ns.data).count '_' := by
  rw [nsControlKey_data]
  simp [List.count_cons]
  omega

lemma count_effKey (a b c : String) :
    ((effKey a b c).data).count '_' =
      4 + ((a.data).count '_' + (b.data).count '_' + (c.data).count '_') := by
  rw [effKey_data]
  simp [List.count_cons, List.count_append]
  omega

/-- A namespace control key is never an effective key of the same
namespace, whatever the version and logical-key strings are. -/
lemma ctrl_ne_effKey_same (ns v k : String) : nsControlKey ns ≠ effKey ns v k := by
  intro h
  have hc := congrArg (fun s => (String.data s).count '_') h
  simp only [count_nsControlKey, count_effKey] at hc
  omega

/-- A control key of an underscore-free namespace is never an effective
key, of any namespace at all. -/
lemma ctrl_ne_effKey_of_clean {ns : String} (h : '_' ∉ ns.data) (a b c : String) :
    nsControlKey ns ≠ effKey a b c := by
  intro he
  have hc := congrArg (fun s => (String.data s).count '_') he
  simp only [count_nsControlKey, count_effKey] at hc
  rw [List.count_eq_zero.mpr h] at hc
  omega

lemma nsControlKey_inj {a b : String} (h : nsControlKey a = nsControlKey b) : a = b := by
  have hd := congrArg String.data h
  rw [nsControlKey_data, nsControlKey_data] at hd
  exact strExt (by simpa using hd)

/-- Splitting at a separator character that occurs in neither prefix is
unambiguous. -/
lemma sep_inj : ∀ (l1 m1 r s : List Char), '_' ∉ l1 → '_' ∉ m1 →
    l1 ++ '_' :: r = m1 ++ '_' :: s → l1 = m1 ∧ r = s := by
  intro l1
  induction l1 with
  | nil =>
    intro m1 r s _ h2 h
    cases m1 with
    | nil =>
      refine ⟨rfl, ?_⟩
      simpa using h
    | cons b bs =>
      exfalso
      rw [List.nil_append, List.cons_append] at h
      injection h with hb _
      subst hb
      exact h2 (List.mem_cons_self _ _)
  | cons a as ih =>
    intro m1 r s h1 h2 h
    cases m1 with
    | nil =>
      exfalso
      rw [List.cons_append, List.nil_append] at h
      injection h with ha _
      subst ha
      exact h1 (List.mem_cons_self _ _)
    | cons b bs =>
      rw [List.cons_append, List.cons_append] at h
      injection h with hab htail
      have h1b : '_' ∉ as := fun hm => h1 (List.mem_cons_of_mem _ hm)
      have h2b : '_' ∉ bs := fun hm => h2 (List.mem_cons_of_mem _ hm)
      obtain ⟨he, hrs⟩ := ih bs r s h1b h2b htail
      exact ⟨by rw [hab, he], hrs⟩

/-- Effective keys of distinct underscore-free namespaces never coincide,
whatever the version and logical-key strings are. -/
lemma effKey_ne_of_ns_ne {a a2 : String} (ha : '_' ∉ a.data) (ha2 : '_' ∉ a2.data)
    (hne : a ≠ a2) (b c b2 c2 : String) : effKey a b c ≠ effKey a2 b2 c2 := by
  intro h
  have hd := congrArg String.data h
  rw [effKey_data, effKey_data] at hd
  injection hd with _ hd
  injection hd with _ hd
  exact hne (strExt (sep_inj _ _ _ _ ha ha2 hd).1)

/-- Within one namespace and one logical key, the effective key determines
the version string. -/
lemma effKey_mid_inj {ns v w k : String} (h : effKey ns v k = effKey ns w k) : v = w := by
  have hd := congrArg String.data h
  rw [effKey_data, effKey_data] at hd
  injection hd with _ hd
  injection hd with _ hd
  have hd2 := List.append_cancel_left hd
  injection hd2 with _ hd3
  have hlen : (v.data).length = (w.data).length := by
    have h4 := congrArg List.length hd3
    rw [List.length_append, List.length_append] at h4
    omega
  exact strExt (List.append_inj hd3 hlen).1

lemma digitChar_toNat {d : Nat} (h : d < 10) : (digitChar d).toNat = 48 + d := by
  interval_cases d <;> rfl

lemma digitChar_isDigit {d : Nat} (h : d < 10) : (digitChar d).isDigit = true := by
  interval_cases d <;> rfl

lemma digitChar_ne_underscore {d : Nat} (h : d < 10) : digitChar d ≠ '_' := by
  interval_cases d <;> decide

lemma decDigitsF_digit :
    ∀ fuel n ch, ch ∈ decDigitsF fuel n → ∃ d, d < 10 ∧ ch = digitChar d := by
  intro fuel
  induction fuel with
  | zero =>
    intro n ch hch
    simp [decDigitsF] at hch
    exact ⟨n % 10, Nat.mod_lt _ (by omega), hch⟩
  | succ fuel ih =>
    intro n ch hch
    rw [decDigitsF] at hch
    by_cases hn : n < 10
    · rw [if_pos hn] at hch
      simp at hch
      exact ⟨n, hn, hch⟩
    · rw [if_neg hn] at hch
      rcases List.mem_append.mp hch with hm | hm
      · exact ih _ _ hm
      · simp at hm
        exact ⟨n % 10, Nat.mod_lt _ (by omega), hm⟩

lemma decDigitsF_ne_nil (fuel n : Nat) : decDigitsF fuel n ≠ [] := by
  cases fuel with
  | zero => simp [decDigitsF]
  | succ fuel =>
    rw [decDigitsF]
    by_cases hn : n < 10
    · rw [if_pos hn]; simp
    · rw [if_neg hn]; simp

lemma decDigitsF_no_underscore (fuel n : Nat) : '_' ∉ decDigitsF fuel n := by
  intro hm
  obtain ⟨d, hd, he⟩ := decDigitsF_digit fuel n _ hm
  exact digitChar_ne_underscore hd he.symm

lemma decDigitsF_all_digits (fuel n : Nat) :
    (decDigitsF fuel n).all (fun c => c.isDigit) = true := by
  rw [List.all_eq_true]
  intro ch hch
  obtain ⟨d, hd, he⟩ := decDigitsF_digit fuel n ch hch
  rw [he]
  exact digitChar_isDigit hd

lemma decDigitsF_foldl :
    ∀ fuel n, n ≤ fuel → ∀ a,
      (decDigitsF fuel n).foldl (fun a c => 10 * a + (c.toNat - 48)) a =
        a * 10 ^ (decDigitsF fuel n).length + n := by
  intro fuel
  induction fuel with
  | zero =>
    intro n hn a
    have h0 : n = 0 := Nat.le_zero.mp hn
    subst h0
    simp [decDigitsF, digitChar_toNat (show 0 % 10 < 10 by omega)]
    omega
  | succ fuel ih =>
    intro n hn a
    rw [decDigitsF]
    by_cases h10 : n < 10
    · rw [if_pos h10]
      simp [digitChar_toNat h10]
      omega
    · rw [if_neg h10]
      have hrec : n / 10 ≤ fuel := by
        have := Nat.div_lt_self (show 0 < n by omega) (show 1 < 10 by omega)
        omega
      rw [List.foldl_append, ih _ hrec a]
      simp [digitChar_toNat (show n % 10 < 10 from Nat.mod_lt _ (by omega))]
      rw [pow_succ]
      have hmod := Nat.div_add_mod n 10
      ring_nf
      omega

/-- Parsing is a left inverse of the decimal rendering of counters. -/
lemma decParse_decString (n : Nat) : decParse? (decString n) = some n := by
  have hdata : (decString n).data = decDigitsF n n := rfl
  rw [decParse?, hdata, if_pos ⟨decDigitsF_ne_nil n n, decDigitsF_all_digits n n⟩]
  rw [decDigitsF_foldl n n (le_refl n) 0]
  simp

lemma decString_no_underscore (n : Nat) : '_' ∉ (decString n).data :=
  decDigitsF_no_underscore n n

/-- The version string that one ns_flush establishes when it observes the
control-key value v: the decimal successor when v parses, 1 otherwise. -/
def nextVer (v : String) : String :=
  match decParse? v with
  | some u => decString (u + 1)
  | none => "1"

lemma nextVer_ne (v : String) : nextVer v ≠ v := by
  intro he
  cases hp : decParse? v with
  | none =>
    have h1 : nextVer v = "1" := by rw [nextVer, hp]
    have h2 : decParse? v = some 1 := by
      rw [← he, h1]
      decide
    rw [hp] at h2
    exact Option.noConfusion h2
  | some u =>
    have h1 : nextVer v = decString (u + 1) := by rw [nextVer, hp]
    have h2 : decParse? v = some (u + 1) := by
      rw [← he, h1, decParse_decString]
    rw [hp] at h2
    have h3 := Option.some.inj h2
    omega

lemma findE_setE_same (c : Cache) (k : String) (e : Entry) :
    (c.setE k e).findE k = some e := by
  simp [Cache.setE, Cache.findE]

lemma findE_setE_ne (c : Cache) {k q : String} (h : k ≠ q) (e : Entry) :
    (c.setE k e).findE q = c.findE q := by
  simp [Cache.setE, Cache.findE, h]

lemma get_setE_same (c : Cache) (k : String) (e : Entry) :
    (c.setE k e).get k = some e.val := by
  simp [Cache.get, findE_setE_same]

lemma get_setE_ne (c : Cache) {k q : String} (h : k ≠ q) (e : Entry) :
    (c.setE k e).get q = c.get q := by
  simp [Cache.get, findE_setE_ne c h]

lemma findE_filter_ne (c : Cache) {k q : String} (h : q ≠ k) :
    Cache.findE (c.filter (fun p => p.1 != k)) q = c.findE q := by
  induction c with
  | nil => rfl
  | cons p rest ih =>
    rw [List.filter_cons]
    by_cases hp : p.1 = k
    · have h1 : (p.1 != k) = false := by simp [hp]
      rw [h1]
      simp only [Bool.false_eq_true, if_false]
      rw [ih]
      have h2 : p.1 ≠ q := fun hq => h (hq.symm.trans hp)
      conv_rhs => rw [Cache.findE]
      rw [if_neg h2]
    · have h1 : (p.1 != k) = true := by simp [hp]
      rw [h1]
      simp only [if_true]
      conv_lhs => rw [Cache.findE]
      conv_rhs => rw [Cache.findE]
      by_cases hq : p.1 = q
      · rw [if_pos hq, if_pos hq]
      · rw [if_neg hq, if_neg hq, ih]

lemma get_filter_ne (c : Cache) {k q : String} (h : q ≠ k) :
    Cache.get (c.filter (fun p => p.1 != k)) q = c.get q := by
  simp [Cache.get, findE_filter_ne c h]

/-- Resolution when the control key is absent: the add creates version 1. -/
lemma getkey_absent {c : Cache} {ns : String} (h : c.findE (nsControlKey ns) = none)
    (k : String) :
    _get_key c ns k = (effKey ns "1" k, c.setE (nsControlKey ns) ⟨"1", 0, 0⟩) := by
  have h2 : c.findE ("__ns_" ++ ns) = none := h
  simp [_get_key, Cache.add, h2, effKey, nsControlKey]

/-- Resolution when the control key is present: the add fails, the stored
value is read back and used verbatim, and the cache is unchanged. -/
lemma getkey_present {c : Cache} {ns : String} {e : Entry}
    (h : c.findE (nsControlKey ns) = some e) (k : String) :
    _get_key c ns k = (effKey ns e.val k, c) := by
  have h2 : c.findE ("__ns_" ++ ns) = some e := h
  simp [_get_key, Cache.add, Cache.get, h2, pyStr, effKey]

/-- Flush of a namespace with no control key: incr fails, set 1. -/
lemma flush_absent {c : Cache} {ns : String} (h : c.findE (nsControlKey ns) = none) :
    ns_flush c ns = c.setE (nsControlKey ns) ⟨"1", 0, 0⟩ := by
  have h2 : c.findE ("__ns_" ++ ns) = none := h
  simp [ns_flush, Cache.incr, h2, Cache.set, nsControlKey]

/-- Flush when the stored control value is non-numeric: incr fails, set 1. -/
lemma flush_noparse {c : Cache} {ns : String} {e : Entry}
    (h : c.findE (nsControlKey ns) = some e) (hp : decParse? e.val = none) :
    ns_flush c ns = c.setE (nsControlKey ns) ⟨"1", 0, 0⟩ := by
  have h2 : c.findE ("__ns_" ++ ns) = some e := h
  simp [ns_flush, Cache.incr, h2, hp, Cache.set, nsControlKey]

/-- Flush when the stored control value parses as u: incr stores u + 1. -/
lemma flush_num {c : Cache} {ns : String} {e : Entry} {u : Nat}
    (h : c.findE (nsControlKey ns) = some e) (hp : decParse? e.val = some u) :
    ns_flush c ns = c.setE (nsControlKey ns) ⟨decString (u + 1), e.time, e.minCompress⟩ := by
  have h2 : c.findE ("__ns_" ++ ns) = some e := h
  simp [ns_flush, Cache.incr, h2, hp, nsControlKey]

/-- Whatever it observes, ns_flush only writes one binding: the control
key of the flushed namespace. -/
lemma flush_eq_setE (c : Cache) (ns : String) :
    ∃ e, ns_flush c ns = c.setE (nsControlKey ns) e := by
  cases h : c.findE (nsControlKey ns) with
  | none => exact ⟨_, flush_absent h⟩
  | some e =>
    cases hp : decParse? e.val with
    | none => exact ⟨_, flush_noparse h hp⟩
    | some u => exact ⟨_, flush_num h hp⟩

lemma findE_add_ne (c : Cache) {k q : String} (h : q ≠ k) (v : String) (t mc : Nat) :
    Cache.findE (c.add k v t mc).2 q = c.findE q := by
  rw [Cache.add]
  cases hf : c.findE k with
  | some e => rfl
  | none => exact findE_setE_ne c (Ne.symm h) _

lemma findE_set_ne (c : Cache) {k q : String} (h : q ≠ k) (v : String) (t mc : Nat) :
    Cache.findE (c.set k v t mc).2 q = c.findE q := by
  rw [Cache.set]
  exact findE_setE_ne c (Ne.symm h) _

lemma findE_incr_ne (c : Cache) {k q : String} (h : q ≠ k) (amount : Nat) :
    Cache.findE (c.incr k amount).2 q = c.findE q := by
  rw [Cache.incr]
  cases hf : c.findE k with
  | none => rfl
  | some e =>
    cases hp : decParse? e.val with
    | none => simp [hp]
    | some n => simp [hp, findE_setE_ne c (Ne.symm h)]

lemma findE_decr_ne (c : Cache) {k q : String} (h : q ≠ k) (amount : Nat) :
    Cache.findE (c.decr k amount).2 q = c.findE q := by
  rw [Cache.decr]
  cases hf : c.findE k with
  | none => rfl
  | some e =>
    cases hp : decParse? e.val with
    | none => simp [hp]
    | some n => simp [hp, findE_setE_ne c (Ne.symm h)]

lemma findE_delete_ne (c : Cache) {k q : String} (h : q ≠ k) :
    Cache.findE (c.delete k).2 q = c.findE q := by
  rw [Cache.delete]
  exact findE_filter_ne c h

/-- The key returned by _get_key always has the effective-key shape, with
the namespace and logical key in their positions. -/
lemma getkey_fst_shape (c : Cache) (ns k : String) :
    ∃ w, (_get_key c ns k).1 = effKey ns w k := by
  cases h : c.findE (nsControlKey ns) with
  | none => exact ⟨"1", by rw [getkey_absent h]⟩
  | some e => exact ⟨e.val, by rw [getkey_present h k]⟩

/-- After resolution the control key is always present. -/
lemma getkey_ctrl_present (c : Cache) (ns k : String) :
    ∃ e, Cache.findE (_get_key c ns k).2 (nsControlKey ns) = some e := by
  cases h : c.findE (nsControlKey ns) with
  | none => exact ⟨_, by rw [getkey_absent h]; exact findE_setE_same _ _ _⟩
  | some e => exact ⟨e, by rw [getkey_present h k]; exact h⟩

lemma isSome_get_of_findE {c : Cache} {q : String} {e : Entry}
    (h : Cache.findE c q = some e) : (Cache.get c q).isSome = true := by
  simp [Cache.get, h]

/-- C2: _get_key computes the control key, attempts an atomic add of the
value 1 on it, uses version 1 when the add succeeds (control key absent,
in which case the add has created it), uses the value returned by get when
the add fails (control key present), and returns the concatenated
effective key. -/
theorem c2_get_key_algorithm (c : Cache) (ns k : String) :
    _get_key c ns k =
      match Cache.get c (nsControlKey ns) with
      | none => (effKey ns "1" k, (c.add (nsControlKey ns) "1" 0 0).2)
      | some v => (effKey ns v k, c) := by
  cases h : c.findE (nsControlKey ns) with
  | none =>
    have hg : Cache.get c (nsControlKey ns) = none := by simp [Cache.get, h]
    rw [hg, getkey_absent h]
    simp [Cache.add, h]
  | some e =>
    have hg : Cache.get c (nsControlKey ns) = some e.val := by simp [Cache.get, h]
    rw [hg, getkey_present h]

/-- C6: every namespaced operation is exactly the corresponding underlying
primitive applied to the key resolved by _get_key, with value, ttl,
compress-threshold and amount parameters passed through unchanged and the
primitive result returned unmodified. -/
theorem c6_delegation (c : Cache) (ns key val : String) (t mc amount : Nat) :
    (ns_add c ns key val t mc =
      Cache.add (_get_key c ns key).2 (_get_key c ns key).1 val t mc) ∧
    (ns_set c ns key val t mc =
      Cache.set (_get_key c ns key).2 (_get_key c ns key).1 val t mc) ∧
    (ns_get c ns key =
      (Cache.get (_get_key c ns key).2 (_get_key c ns key).1, (_get_key c ns key).2)) ∧
    (ns_incr c ns key amount =
      Cache.incr (_get_key c ns key).2 (_get_key c ns key).1 amount) ∧
    (ns_decr c ns key amount =
      Cache.decr (_get_key c ns key).2 (_get_key c ns key).1 amount) ∧
    (ns_delete c ns key =
      Cache.delete (_get_key c ns key).2 (_get_key c ns key).1) :=
  ⟨rfl, rfl, rfl, rfl, rfl, rfl⟩

/-- C8: when the control key holds any value v at all (numeric or not),
the failed add is followed by a get whose result is used verbatim in the
key concatenation; _get_key performs no validation, raises no error and
leaves the cache unchanged, so a corrupted counter yields a malformed
effective key rather than a failure. -/
theorem c8_no_validation (c : Cache) (ns k v : String)
    (h : Cache.get c (nsControlKey ns) = some v) :
    _get_key c ns k = (effKey ns v k, c) := by
  cases hf : c.findE (nsControlKey ns) with
  | none => rw [Cache.get, hf] at h; simp at h
  | some e =>
    have hv : e.val = v := by rw [Cache.get, hf] at h; simpa using h
    rw [getkey_present hf, hv]

/-- C8 witness: a control key corrupted to the non-numeric value b_2 is
interpolated verbatim, producing a malformed (ambiguous) effective key. -/
theorem c8_witness :
    _get_key [(nsControlKey "a", ⟨"b_2", 0, 0⟩)] "a" "x" =
      (effKey "a" "b_2" "x", [(nsControlKey "a", ⟨"b_2", 0, 0⟩)]) :=
  c8_no_validation [(nsControlKey "a", ⟨"b_2", 0, 0⟩)] "a" "x" "b_2" (by decide)

/-- C5: ns_flush attempts an atomic incr of the control key; exactly when
that incr fails (control key absent, or stored value non-numeric) it sets
the control key to 1, otherwise the counter becomes its decimal successor;
flushing a never-touched namespace therefore succeeds and establishes
version 1. -/
theorem c5_flush_behavior (c : Cache) (ns : String) :
    (ns_flush c ns =
      match Cache.findE c (nsControlKey ns) with
      | none => (Cache.set c (nsControlKey ns) "1" 0 0).2
      | some e =>
          match decParse? e.val with
          | none => (Cache.set c (nsControlKey ns) "1" 0 0).2
          | some u => Cache.setE c (nsControlKey ns) ⟨decString (u + 1), e.time, e.minCompress⟩) ∧
    (Cache.get c (nsControlKey ns) = none →
      Cache.get (ns_flush c ns) (nsControlKey ns) = some "1") := by
  constructor
  · cases h : c.findE (nsControlKey ns) with
    | none => rw [flush_absent h]; rfl
    | some e =>
      cases hp : decParse? e.val with
      | none => rw [flush_noparse h hp]; simp [hp, Cache.set]
      | some u => rw [flush_num h hp]; simp [hp]
  · intro hg
    have hf : c.findE (nsControlKey ns) = none := by
      rw [Cache.get] at hg
      cases hx : c.findE (nsControlKey ns) with
      | none => rfl
      | some e => rw [hx] at hg; simp at hg
    rw [flush_absent hf]
    exact get_setE_same _ _ _

/-- C5 witness: flushing a namespace never touched before establishes
version 1. -/
theorem c5_witness : Cache.get (ns_flush [] "a") (nsControlKey "a") = some "1" :=
  (c5_flush_behavior [] "a").2 (by decide)

/-- C10: after any public namespaced operation on ns, including the
read-only ns_get and ns_delete, and ns_flush of a never-touched namespace,
the control key of ns exists in the underlying cache. -/
theorem c10_control_key_created (c : Cache) (ns key val : String) (t mc amount : Nat) :
    ((Cache.get (runOp c (Op.opGet ns key)) (nsControlKey ns)).isSome = true) ∧
    ((Cache.get (runOp c (Op.opSet ns key val t mc)) (nsControlKey ns)).isSome = true) ∧
    ((Cache.get (runOp c (Op.opAdd ns key val t mc)) (nsControlKey ns)).isSome = true) ∧
    ((Cache.get (runOp c (Op.opIncr ns key amount)) (nsControlKey ns)).isSome = true) ∧
    ((Cache.get (runOp c (Op.opDecr ns key amount)) (nsControlKey ns)).isSome = true) ∧
    ((Cache.get (runOp c (Op.opDelete ns key)) (nsControlKey ns)).isSome = true) ∧
    ((Cache.get (runOp c (Op.opFlush ns)) (nsControlKey ns)).isSome = true) := by
  obtain ⟨w, hw⟩ := getkey_fst_shape c ns key
  obtain ⟨e, he⟩ := getkey_ctrl_present c ns key
  have hq : nsControlKey ns ≠ (_get_key c ns key).1 :=
    fun hh => ctrl_ne_effKey_same ns w key (hw ▸ hh)
  refine ⟨?_, ?_, ?_, ?_, ?_, ?_, ?_⟩
  · exact isSome_get_of_findE he
  · refine isSome_get_of_findE (e := e) ?_
    show Cache.findE
      (Cache.set (_get_key c ns key).2 (_get_key c ns key).1 val t mc).2 (nsControlKey ns) = some e
    rw [findE_set_ne _ hq]
    exact he
  · refine isSome_get_of_findE (e := e) ?_
    show Cache.findE
      (Cache.add (_get_key c ns key).2 (_get_key c ns key).1 val t mc).2 (nsControlKey ns) = some e
    rw [findE_add_ne _ hq]
    exact he
  · refine isSome_get_of_findE (e := e) ?_
    show Cache.findE
      (Cache.incr (_get_key c ns key).2 (_get_key c ns key).1 amount).2 (nsControlKey ns) = some e
    rw [findE_incr_ne _ hq]
    exact he
  · refine isSome_get_of_findE (e := e) ?_
    show Cache.findE
      (Cache.decr (_get_key c ns key).2 (_get_key c ns key).1 amount).2 (nsControlKey ns) = some e
    rw [findE_decr_ne _ hq]
    exact he
  · refine isSome_get_of_findE (e := e) ?_
    show Cache.findE
      (Cache.delete (_get_key c ns key).2 (_get_key c ns key).1).2 (nsControlKey ns) = some e
    rw [findE_delete_ne _ hq]
    exact he
  · obtain ⟨E, hE⟩ := flush_eq_setE c ns
    refine isSome_get_of_findE (e := E) ?_
    show Cache.findE (ns_flush c ns) (nsControlKey ns) = some E
    rw [hE]
    exact findE_setE_same _ _ _

/-- C1 counterexample: the original claim fails in a reachable state.
From the empty cache, two flushes of namespace a_2 take its counter to 2,
ns_set(a_2, k, stale) stores at the key __a_2_2_k, and a first lookup in
namespace a creates a's counter with value 1 — so the claim's premise
holds with v = 1.  Yet ns_set(a, 2_k, val); ns_flush(a); ns_get(a, 2_k)
resolves version 2, i.e. the colliding key __a_2_2_k, and returns the
stale entry of the other namespace instead of the not-found sentinel. -/
theorem c1_counterexample :
    (Cache.get (runOps [] [Op.opFlush "a_2", Op.opFlush "a_2",
        Op.opSet "a_2" "k" "stale" 0 0, Op.opGet "a" "q"]) (nsControlKey "a")
      = some "1") ∧
    ¬ ((ns_get (ns_flush (ns_set (runOps [] [Op.opFlush "a_2", Op.opFlush "a_2",
        Op.opSet "a_2" "k" "stale" 0 0, Op.opGet "a" "q"]) "a" "2_k" "val" 0 0).2 "a")
        "a" "2_k").1 = none) := by
  decide

/-- C1 amended: if the control key of ns currently holds v and, in
addition, no entry occupies the slot addressed under the advanced version
nextVer v (hypothesis h2 — the proviso the counterexample forces, since
key collisions through underscore-containing names can fill that slot even
in reachable states), then ns_set writes the effective key for version v,
ns_flush advances the counter to nextVer v, and the subsequent ns_get
resolves a different effective key and returns the not-found sentinel,
while the value written by the set is still stored (orphaned, not
deleted). -/
theorem c1_flush_invalidates (c : Cache) (ns k val : String) (t mc : Nat) (v : String)
    (h1 : Cache.get c (nsControlKey ns) = some v)
    (h2 : Cache.get c (effKey ns (nextVer v) k) = none) :
    ((ns_get (ns_flush (ns_set c ns k val t mc).2 ns) ns k).1 = none) ∧
    (Cache.get (ns_get (ns_flush (ns_set c ns k val t mc).2 ns) ns k).2 (effKey ns v k) =
      some val) := by
  obtain ⟨e, hf, hv⟩ : ∃ e, c.findE (nsControlKey ns) = some e ∧ e.val = v := by
    rw [Cache.get] at h1
    cases hx : c.findE (nsControlKey ns) with
    | none => rw [hx] at h1; simp at h1
    | some e => rw [hx] at h1; exact ⟨e, rfl, by simpa using h1⟩
  have hset : (ns_set c ns k val t mc).2 = Cache.setE c (effKey ns v k) ⟨val, t, mc⟩ := by
    show (Cache.set (_get_key c ns k).2 (_get_key c ns k).1 val t mc).2 = _
    rw [getkey_present hf, hv, Cache.set]
  set c1 := Cache.setE c (effKey ns v k) ⟨val, t, mc⟩ with hc1
  have hctrl1 : Cache.findE c1 (nsControlKey ns) = some e := by
    rw [hc1, findE_setE_ne c (Ne.symm (ctrl_ne_effKey_same ns v k))]
    exact hf
  have hparse : decParse? v = decParse? e.val := by rw [hv]
  obtain ⟨E, hE, hEval⟩ : ∃ E, ns_flush c1 ns = Cache.setE c1 (nsControlKey ns) E ∧
      E.val = nextVer v := by
    cases hp : decParse? e.val with
    | none =>
      refine ⟨⟨"1", 0, 0⟩, flush_noparse hctrl1 hp, ?_⟩
      rw [nextVer, hparse, hp]
    | some u =>
      refine ⟨⟨decString (u + 1), e.time, e.minCompress⟩, flush_num hctrl1 hp, ?_⟩
      rw [nextVer, hparse, hp]
  rw [hset, hE]
  set c2 := Cache.setE c1 (nsControlKey ns) E with hc2
  have hctrl2 : Cache.findE c2 (nsControlKey ns) = some E := findE_setE_same _ _ _
  have hres : _get_key c2 ns k = (effKey ns E.val k, c2) := getkey_present hctrl2 k
  have hget1 : (ns_get c2 ns k).1 = Cache.get c2 (effKey ns E.val k) := by
    show Cache.get (_get_key c2 ns k).2 (_get_key c2 ns k).1 = _
    rw [hres]
  have hget2 : (ns_get c2 ns k).2 = c2 := by
    show (_get_key c2 ns k).2 = c2
    rw [hres]
  constructor
  · rw [hget1, hEval, hc2,
      get_setE_ne c1 (ctrl_ne_effKey_same ns (nextVer v) k), hc1,
      get_setE_ne c (fun hh => nextVer_ne v (effKey_mid_inj hh).symm)]
    exact h2
  · rw [hget2, hc2, get_setE_ne c1 (ctrl_ne_effKey_same ns v k), hc1]
    exact get_setE_same _ _ _

/-- C1 witness: set then flush then get on a concrete cache whose counter
is 1; the get misses while the old slot still holds the orphaned value. -/
theorem c1_witness :
    ((ns_get (ns_flush (ns_set (ns_set [] "a" "k" "x" 0 0).2 "a" "k" "y" 0 0).2 "a") "a" "k").1
        = none) ∧
    (Cache.get
        (ns_get (ns_flush (ns_set (ns_set [] "a" "k" "x" 0 0).2 "a" "k" "y" 0 0).2 "a") "a" "k").2
        (effKey "a" "1" "k") = some "y") :=
  c1_flush_invalidates (ns_set [] "a" "k" "x" 0 0).2 "a" "k" "y" 0 0 "1"
    (by decide) (by decide)

/-- One ns_set factors as: a base cache (possibly extended with a freshly
created control key) in which the control key of ns holds the resolved
version w, plus one write at the effective key for w; all other keys of
the base cache are as in the input. -/
lemma ns_set_shape (c : Cache) (ns k v : String) (t mc : Nat) :
    ∃ w ca, (ns_set c ns k v t mc).2 = Cache.setE ca (effKey ns w k) ⟨v, t, mc⟩ ∧
      (∃ e, Cache.findE ca (nsControlKey ns) = some e ∧ e.val = w) ∧
      (∀ q, q ≠ nsControlKey ns → Cache.findE ca q = c.findE q) := by
  cases hA : c.findE (nsControlKey ns) with
  | none =>
    refine ⟨"1", c.setE (nsControlKey ns) ⟨"1", 0, 0⟩, ?_,
      ⟨⟨"1", 0, 0⟩, findE_setE_same _ _ _, rfl⟩, ?_⟩
    · show (Cache.set (_get_key c ns k).2 (_get_key c ns k).1 v t mc).2 = _
      rw [getkey_absent hA, Cache.set]
    · intro q hq
      exact findE_setE_ne c (Ne.symm hq) _
  | some e =>
    refine ⟨e.val, c, ?_, ⟨e, hA, rfl⟩, fun q hq => rfl⟩
    show (Cache.set (_get_key c ns k).2 (_get_key c ns k).1 v t mc).2 = _
    rw [getkey_present hA, Cache.set]

/-- C4 counterexample: with ns1 = 1_foo, ns2 = ns and k = foo, the second
set stores at __ns_1_foo, which is the control key of namespace 1_foo, so
the first namespace's counter is corrupted and its get misses: namespace
isolation fails as stated, because effective keys and control keys can
collide once names contain underscores. -/
theorem c4_counterexample :
    ¬ ((ns_get (ns_set (ns_set [] "1_foo" "foo" "A" 0 0).2 "ns" "foo" "2" 0 0).2
          "1_foo" "foo").1 = some "A") := by
  decide

/-- C4 amended: namespace isolation as claimed, for namespaces whose names
contain no underscore (the logical key, the stored values and the prior
cache contents remain arbitrary). -/
theorem c4_isolation_amended (c : Cache) (ns1 ns2 k v1 v2 : String) (t1 mc1 t2 mc2 : Nat)
    (hne : ns1 ≠ ns2) (h1 : '_' ∉ ns1.data) (h2 : '_' ∉ ns2.data) :
    ((ns_get (ns_set (ns_set c ns1 k v1 t1 mc1).2 ns2 k v2 t2 mc2).2 ns1 k).1 = some v1) ∧
    ((ns_get (ns_set (ns_set c ns1 k v1 t1 mc1).2 ns2 k v2 t2 mc2).2 ns2 k).1 = some v2) := by
  obtain ⟨w1, ca, hs1, ⟨e1, he1, hw1⟩, hfr1⟩ := ns_set_shape c ns1 k v1 t1 mc1
  rw [hs1]
  obtain ⟨w2, cb, hs2, ⟨e2, he2, hw2⟩, hfr2⟩ :=
    ns_set_shape (Cache.setE ca (effKey ns1 w1 k) ⟨v1, t1, mc1⟩) ns2 k v2 t2 mc2
  rw [hs2]
  have hctrl12 : nsControlKey ns1 ≠ nsControlKey ns2 :=
    fun hh => hne (nsControlKey_inj hh)
  have hctrl1 : Cache.findE (Cache.setE cb (effKey ns2 w2 k) ⟨v2, t2, mc2⟩)
      (nsControlKey ns1) = some e1 := by
    rw [findE_setE_ne cb (Ne.symm (ctrl_ne_effKey_of_clean h1 ns2 w2 k))]
    rw [hfr2 _ hctrl12]
    rw [findE_setE_ne ca (Ne.symm (ctrl_ne_effKey_same ns1 w1 k))]
    exact he1
  have hctrl2 : Cache.findE (Cache.setE cb (effKey ns2 w2 k) ⟨v2, t2, mc2⟩)
      (nsControlKey ns2) = some e2 := by
    rw [findE_setE_ne cb (Ne.symm (ctrl_ne_effKey_same ns2 w2 k))]
    exact he2
  constructor
  · have hres := getkey_present hctrl1 k
    have hget : (ns_get (Cache.setE cb (effKey ns2 w2 k) ⟨v2, t2, mc2⟩) ns1 k).1 =
        Cache.get (Cache.setE cb (effKey ns2 w2 k) ⟨v2, t2, mc2⟩) (effKey ns1 e1.val k) := by
      show Cache.get (_get_key _ ns1 k).2 (_get_key _ ns1 k).1 = _
      rw [hres]
    rw [hget, hw1,
      get_setE_ne cb (effKey_ne_of_ns_ne h2 h1 (Ne.symm hne) w2 k w1 k)]
    have hfind : Cache.findE cb (effKey ns1 w1 k) = some ⟨v1, t1, mc1⟩ := by
      rw [hfr2 _ (Ne.symm (ctrl_ne_effKey_of_clean h2 ns1 w1 k))]
      exact findE_setE_same _ _ _
    simp [Cache.get, hfind]
  · have hres := getkey_present hctrl2 k
    have hget : (ns_get (Cache.setE cb (effKey ns2 w2 k) ⟨v2, t2, mc2⟩) ns2 k).1 =
        Cache.get (Cache.setE cb (effKey ns2 w2 k) ⟨v2, t2, mc2⟩) (effKey ns2 e2.val k) := by
      show Cache.get (_get_key _ ns2 k).2 (_get_key _ ns2 k).1 = _
      rw [hres]
    rw [hget, hw2]
    exact get_setE_same _ _ _

/-- C4 amended witness: isolation for two concrete underscore-free
namespaces sharing the logical key k, starting from the empty cache. -/
theorem c4_witness :
    ((ns_get (ns_set (ns_set [] "a" "k" "x" 0 0).2 "b" "k" "y" 0 0).2 "a" "k").1 = some "x") ∧
    ((ns_get (ns_set (ns_set [] "a" "k" "x" 0 0).2 "b" "k" "y" 0 0).2 "b" "k").1 = some "y") :=
  c4_isolation_amended [] "a" "b" "k" "x" "y" 0 0 0 0 (by decide) (by decide) (by decide)

/-- C7 counterexample: ns_flush of namespace 1_x increments the key
__ns_1_x, which is exactly the effective key holding the entry x of
namespace ns at version 1, so the other namespace's stored value 5 is
bumped to 6 by the flush. -/
theorem c7_counterexample :
    ¬ ((ns_get (ns_flush (ns_set [] "ns" "x" "5" 0 0).2 "1_x") "ns" "x").1 = some "5") := by
  decide

/-- C7 amended: flushing ns2 leaves every entry of another namespace ns1
untouched, provided the name of the flushed namespace ns2 contains no
underscore (ns1, the key and the value remain arbitrary): the flush writes
only the control key of ns2, which then cannot collide with any effective
key or with ns1's control key. -/
theorem c7_flush_frame_amended (c : Cache) (ns1 ns2 k x : String) (t mc : Nat)
    (hne : ns1 ≠ ns2) (h2 : '_' ∉ ns2.data) :
    (ns_get (ns_flush (ns_set c ns1 k x t mc).2 ns2) ns1 k).1 = some x := by
  obtain ⟨w1, ca, hs1, ⟨e1, he1, hw1⟩, hfr1⟩ := ns_set_shape c ns1 k x t mc
  rw [hs1]
  obtain ⟨E, hE⟩ := flush_eq_setE (Cache.setE ca (effKey ns1 w1 k) ⟨x, t, mc⟩) ns2
  rw [hE]
  have hctrl12 : nsControlKey ns1 ≠ nsControlKey ns2 :=
    fun hh => hne (nsControlKey_inj hh)
  have hctrl1 : Cache.findE
      (Cache.setE (Cache.setE ca (effKey ns1 w1 k) ⟨x, t, mc⟩) (nsControlKey ns2) E)
      (nsControlKey ns1) = some e1 := by
    rw [findE_setE_ne _ (Ne.symm hctrl12)]
    rw [findE_setE_ne ca (Ne.symm (ctrl_ne_effKey_same ns1 w1 k))]
    exact he1
  have hres := getkey_present hctrl1 k
  have hget : (ns_get
      (Cache.setE (Cache.setE ca (effKey ns1 w1 k) ⟨x, t, mc⟩) (nsControlKey ns2) E) ns1 k).1 =
      Cache.get (Cache.setE (Cache.setE ca (effKey ns1 w1 k) ⟨x, t, mc⟩) (nsControlKey ns2) E)
        (effKey ns1 e1.val k) := by
    show Cache.get (_get_key _ ns1 k).2 (_get_key _ ns1 k).1 = _
    rw [hres]
  rw [hget, hw1, get_setE_ne _ (ctrl_ne_effKey_of_clean h2 ns1 w1 k)]
  exact get_setE_same _ _ _

/-- C7 amended witness: a concrete set in namespace a survives a flush of
the underscore-free namespace b. -/
theorem c7_witness :
    (ns_get (ns_flush (ns_set [] "a" "k" "x" 0 0).2 "b") "a" "k").1 = some "x" :=
  c7_flush_frame_amended [] "a" "b" "k" "x" 0 0 (by decide) (by decide)

lemma verNat_eq (c : Cache) (ns : String) :
    verNat c ns = match c.findE (nsControlKey ns) with
      | none => none
      | some e => decParse? e.val := by
  rw [verNat, Cache.get]
  cases c.findE (nsControlKey ns) <;> rfl

lemma ctrlWF_congr {c1 c2 : Cache} {ns : String}
    (h : Cache.get c2 (nsControlKey ns) = Cache.get c1 (nsControlKey ns))
    (hwf : ctrlWF c1 ns) : ctrlWF c2 ns := by
  rcases hwf with h1 | ⟨m, hm, h1⟩
  · exact Or.inl (by rw [h]; exact h1)
  · exact Or.inr ⟨m, hm, by rw [h]; exact h1⟩

lemma ctrlWF_of_findE_one {c : Cache} {ns : String}
    (h : Cache.findE c (nsControlKey ns) = some ⟨"1", 0, 0⟩) : ctrlWF c ns :=
  Or.inr ⟨1, le_refl 1, by rw [Cache.get, h]; rfl⟩

lemma ctrlWF_of_findE_dec {c : Cache} {ns : String} {u t mc : Nat}
    (h : Cache.findE c (nsControlKey ns) = some ⟨decString (u + 1), t, mc⟩) : ctrlWF c ns :=
  Or.inr ⟨u + 1, by omega, by rw [Cache.get, h]; rfl⟩

/-- How one resolution step can touch the control key of ns: not at all,
or by creating it with value 1 when it was absent. -/
lemma getkey_ctrl_cases (c : Cache) (ns2 k ns : String) :
    Cache.findE (_get_key c ns2 k).2 (nsControlKey ns) = c.findE (nsControlKey ns) ∨
    (c.findE (nsControlKey ns) = none ∧
      Cache.findE (_get_key c ns2 k).2 (nsControlKey ns) = some ⟨"1", 0, 0⟩) := by
  by_cases heq : ns2 = ns
  · subst heq
    cases hA : c.findE (nsControlKey ns2) with
    | none =>
      right
      refine ⟨rfl, ?_⟩
      rw [getkey_absent hA]
      exact findE_setE_same _ _ _
    | some e =>
      left
      rw [getkey_present hA]
      exact hA
  · left
    cases hA : c.findE (nsControlKey ns2) with
    | none =>
      rw [getkey_absent hA]
      exact findE_setE_ne c (fun hh => heq (nsControlKey_inj hh)) _
    | some e =>
      rw [getkey_present hA]

/-- How one public operation can touch the control key of an
underscore-free namespace ns: not at all; by creating it with value 1 when
its parsed version was undefined; or by bumping a parsed version u to its
decimal successor. -/
lemma ctrl_after_step (ns : String) (hclean : '_' ∉ ns.data) (c : Cache) (op : Op) :
    Cache.findE (runOp c op) (nsControlKey ns) = c.findE (nsControlKey ns) ∨
    (verNat c ns = none ∧
      Cache.findE (runOp c op) (nsControlKey ns) = some ⟨"1", 0, 0⟩) ∨
    (∃ e u, c.findE (nsControlKey ns) = some e ∧ decParse? e.val = some u ∧
      Cache.findE (runOp c op) (nsControlKey ns) =
        some ⟨decString (u + 1), e.time, e.minCompress⟩) := by
  cases op with
  | opGet ns2 k =>
    rcases getkey_ctrl_cases c ns2 k ns with h | ⟨h1, h2⟩
    · exact Or.inl h
    · exact Or.inr (Or.inl ⟨by rw [verNat_eq, h1], h2⟩)
  | opSet ns2 k v t mc =>
    obtain ⟨w, hwsh⟩ := getkey_fst_shape c ns2 k
    have hq : nsControlKey ns ≠ (_get_key c ns2 k).1 :=
      fun hh => ctrl_ne_effKey_of_clean hclean ns2 w k (hwsh ▸ hh)
    have hstep : Cache.findE (runOp c (Op.opSet ns2 k v t mc)) (nsControlKey ns) =
        Cache.findE (_get_key c ns2 k).2 (nsControlKey ns) := by
      show Cache.findE (Cache.set (_get_key c ns2 k).2 (_get_key c ns2 k).1 v t mc).2 _ = _
      exact findE_set_ne _ hq _ _ _
    rcases getkey_ctrl_cases c ns2 k ns with h | ⟨h1, h2⟩
    · exact Or.inl (by rw [hstep, h])
    · exact Or.inr (Or.inl ⟨by rw [verNat_eq, h1], by rw [hstep, h2]⟩)
  | opAdd ns2 k v t mc =>
    obtain ⟨w, hwsh⟩ := getkey_fst_shape c ns2 k
    have hq : nsControlKey ns ≠ (_get_key c ns2 k).1 :=
      fun hh => ctrl_ne_effKey_of_clean hclean ns2 w k (hwsh ▸ hh)
    have hstep : Cache.findE (runOp c (Op.opAdd ns2 k v t mc)) (nsControlKey ns) =
        Cache.findE (_get_key c ns2 k).2 (nsControlKey ns) := by
      show Cache.findE (Cache.add (_get_key c ns2 k).2 (_get_key c ns2 k).1 v t mc).2 _ = _
      exact findE_add_ne _ hq _ _ _
    rcases getkey_ctrl_cases c ns2 k ns with h | ⟨h1, h2⟩
    · exact Or.inl (by rw [hstep, h])
    · exact Or.inr (Or.inl ⟨by rw [verNat_eq, h1], by rw [hstep, h2]⟩)
  | opIncr ns2 k amount =>
    obtain ⟨w, hwsh⟩ := getkey_fst_shape c ns2 k
    have hq : nsControlKey ns ≠ (_get_key c ns2 k).1 :=
      fun hh => ctrl_ne_effKey_of_clean hclean ns2 w k (hwsh ▸ hh)
    have hstep : Cache.findE (runOp c (Op.opIncr ns2 k amount)) (nsControlKey ns) =
        Cache.findE (_get_key c ns2 k).2 (nsControlKey ns) := by
      show Cache.findE (Cache.incr (_get_key c ns2 k).2 (_get_key c ns2 k).1 amount).2 _ = _
      exact findE_incr_ne _ hq _
    rcases getkey_ctrl_cases c ns2 k ns with h | ⟨h1, h2⟩
    · exact Or.inl (by rw [hstep, h])
    · exact Or.inr (Or.inl ⟨by rw [verNat_eq, h1], by rw [hstep, h2]⟩)
  | opDecr ns2 k amount =>
    obtain ⟨w, hwsh⟩ := getkey_fst_shape c ns2 k
    have hq : nsControlKey ns ≠ (_get_key c ns2 k).1 :=
      fun hh => ctrl_ne_effKey_of_clean hclean ns2 w k (hwsh ▸ hh)
    have hstep : Cache.findE (runOp c (Op.opDecr ns2 k amount)) (nsControlKey ns) =
        Cache.findE (_get_key c ns2 k).2 (nsControlKey ns) := by
      show Cache.findE (Cache.decr (_get_key c ns2 k).2 (_get_key c ns2 k).1 amount).2 _ = _
      exact findE_decr_ne _ hq _
    rcases getkey_ctrl_cases c ns2 k ns with h | ⟨h1, h2⟩
    · exact Or.inl (by rw [hstep, h])
    · exact Or.inr (Or.inl ⟨by rw [verNat_eq, h1], by rw [hstep, h2]⟩)
  | opDelete ns2 k =>
    obtain ⟨w, hwsh⟩ := getkey_fst_shape c ns2 k
    have hq : nsControlKey ns ≠ (_get_key c ns2 k).1 :=
      fun hh => ctrl_ne_effKey_of_clean hclean ns2 w k (hwsh ▸ hh)
    have hstep : Cache.findE (runOp c (Op.opDelete ns2 k)) (nsControlKey ns) =
        Cache.findE (_get_key c ns2 k).2 (nsControlKey ns) := by
      show Cache.findE (Cache.delete (_get_key c ns2 k).2 (_get_key c ns2 k).1).2 _ = _
      exact findE_delete_ne _ hq
    rcases getkey_ctrl_cases c ns2 k ns with h | ⟨h1, h2⟩
    · exact Or.inl (by rw [hstep, h])
    · exact Or.inr (Or.inl ⟨by rw [verNat_eq, h1], by rw [hstep, h2]⟩)
  | opFlush ns2 =>
    by_cases heq : ns2 = ns
    · subst heq
      cases hA : c.findE (nsControlKey ns2) with
      | none =>
        refine Or.inr (Or.inl ⟨by rw [verNat_eq, hA], ?_⟩)
        show Cache.findE (ns_flush c ns2) (nsControlKey ns2) = _
        rw [flush_absent hA]
        exact findE_setE_same _ _ _
      | some e =>
        cases hp : decParse? e.val with
        | none =>
          refine Or.inr (Or.inl ⟨?_, ?_⟩)
          · rw [verNat_eq, hA]
            exact hp
          · show Cache.findE (ns_flush c ns2) (nsControlKey ns2) = _
            rw [flush_noparse hA hp]
            exact findE_setE_same _ _ _
        | some u =>
          refine Or.inr (Or.inr ⟨e, u, rfl, hp, ?_⟩)
          show Cache.findE (ns_flush c ns2) (nsControlKey ns2) = _
          rw [flush_num hA hp]
          exact findE_setE_same _ _ _
    · left
      obtain ⟨E, hE⟩ := flush_eq_setE c ns2
      show Cache.findE (ns_flush c ns2) (nsControlKey ns) = _
      rw [hE]
      exact findE_setE_ne c (fun hh => heq (nsControlKey_inj hh)) _

/-- One public operation keeps the counter of an underscore-free namespace
well formed and never moves it backwards. -/
lemma c3_step (ns : String) (hclean : '_' ∉ ns.data) (c : Cache) (hwf : ctrlWF c ns)
    (op : Op) :
    ctrlWF (runOp c op) ns ∧
    ∀ n, verNat c ns = some n → ∃ m, verNat (runOp c op) ns = some m ∧ n ≤ m := by
  rcases ctrl_after_step ns hclean c op with h | ⟨h1, h2⟩ | ⟨e, u, he, hu, h2⟩
  · constructor
    · exact ctrlWF_congr (by rw [Cache.get, Cache.get, h]) hwf
    · intro n hn
      refine ⟨n, ?_, le_refl n⟩
      rw [verNat_eq, h, ← verNat_eq]
      exact hn
  · constructor
    · exact ctrlWF_of_findE_one h2
    · intro n hn
      rw [h1] at hn
      exact absurd hn (by simp)
  · constructor
    · exact ctrlWF_of_findE_dec h2
    · intro n hn
      refine ⟨u + 1, ?_, ?_⟩
      · rw [verNat_eq, h2]
        exact decParse_decString (u + 1)
      · have : verNat c ns = some u := by rw [verNat_eq, he]; exact hu
        rw [this] at hn
        have hnu := Option.some.inj hn
        omega

/-- A flush that observes a parsed version n strictly increments it. -/
lemma c3_flush_strict (ns : String) (c : Cache) (n : Nat)
    (h : verNat c ns = some n) : verNat (runOp c (Op.opFlush ns)) ns = some (n + 1) := by
  rw [verNat_eq] at h
  cases hA : c.findE (nsControlKey ns) with
  | none => rw [hA] at h; exact absurd h (by simp)
  | some e =>
    rw [hA] at h
    have hp : decParse? e.val = some n := h
    show verNat (ns_flush c ns) ns = some (n + 1)
    rw [flush_num hA hp, verNat_eq, findE_setE_same]
    exact decParse_decString (n + 1)

lemma c3_runOps (ns : String) (hclean : '_' ∉ ns.data) :
    ∀ (ops : List Op) (c : Cache), ctrlWF c ns →
      ctrlWF (runOps c ops) ns ∧
      ∀ n, verNat c ns = some n → ∃ m, verNat (runOps c ops) ns = some m ∧ n ≤ m := by
  intro ops
  induction ops with
  | nil => exact fun c hwf => ⟨hwf, fun n hn => ⟨n, hn, le_refl n⟩⟩
  | cons op ops ih =>
    intro c hwf
    obtain ⟨hwf1, hmono1⟩ := c3_step ns hclean c hwf op
    obtain ⟨hwf2, hmono2⟩ := ih (runOp c op) hwf1
    refine ⟨hwf2, ?_⟩
    intro n hn
    obtain ⟨m1, hm1, hle1⟩ := hmono1 n hn
    obtain ⟨m2, hm2, hle2⟩ := hmono2 m1 hm1
    exact ⟨m2, hm2, le_trans hle1 hle2⟩

/-- C3 counterexample: the claim quantifies over every namespace, but for
a namespace whose name contains an underscore the counter is not
protected: after two flushes of namespace 1_a its counter is 2, and the
public operation ns_delete on namespace ns with key a resolves the
effective key __ns_1_a, which is exactly the control key of 1_a, deleting
the counter. -/
theorem c3_counterexample :
    (Cache.get (runOps [] [Op.opFlush "1_a", Op.opFlush "1_a"]) (nsControlKey "1_a")
        = some "2") ∧
    (Cache.get (runOps [] [Op.opFlush "1_a", Op.opFlush "1_a", Op.opDelete "ns" "a"])
        (nsControlKey "1_a") = none) := by
  decide

/-- C3 amended: for every namespace whose name contains no underscore,
starting from any cache whose counter for that namespace is well formed
(absent or a positive decimal, as in every reachable state), no sequence
of public operations with arbitrary (even underscore-containing) arguments
ever decreases, resets or deletes the counter, and every ns_flush that
observes a parsed counter n moves it to exactly n + 1. -/
theorem c3_monotone_amended (ns : String) (hclean : '_' ∉ ns.data) (c : Cache)
    (hwf : ctrlWF c ns) (ops : List Op) :
    ctrlWF (runOps c ops) ns ∧
    (∀ n, verNat c ns = some n → ∃ m, verNat (runOps c ops) ns = some m ∧ n ≤ m) ∧
    (∀ n, verNat c ns = some n → verNat (runOp c (Op.opFlush ns)) ns = some (n + 1)) := by
  obtain ⟨h1, h2⟩ := c3_runOps ns hclean ops c hwf
  exact ⟨h1, h2, fun n hn => c3_flush_strict ns c n hn⟩

/-- C3 amended witness: after one flush of the underscore-free namespace a
its counter is 1, and a second flush moves it to exactly 2. -/
theorem c3_witness :
    verNat (runOp (runOps [] [Op.opFlush "a"]) (Op.opFlush "a")) "a" = some 2 :=
  (c3_monotone_amended "a" (by decide) (runOps [] [Op.opFlush "a"])
      (Or.inr ⟨1, by decide, by decide⟩) []).2.2 1 (by decide)

/-- The state of one client running a concurrent resolveKey: not yet
started; add performed and failed, get still pending; or finished having
observed the given version string. -/
inductive RState where
  | notStarted
  | pending
  | done (version : String)
deriving DecidableEq

/-- Modelled from the spec: one atomic step of client i among n
concurrent first-time resolveKey(ns, k) callers.  A client's first step is
_get_key's atomic add of 1 on the control key (observing version 1
immediately if the add succeeds); its second step, taken only when its add
failed, is _get_key's get, whose result is interpolated as the observed
version. -/
def rstep (n : Nat) (ns : String) (s : Cache × (Fin n → RState)) (i : Fin n) :
    Cache × (Fin n → RState) :=
  match s.2 i with
  | RState.notStarted =>
      let r := Cache.add s.1 (nsControlKey ns) "1" 0 0
      if r.1 then (r.2, fun j => if j = i then RState.done "1" else s.2 j)
      else (r.2, fun j => if j = i then RState.pending else s.2 j)
  | RState.pending =>
      (s.1, fun j =>
        if j = i then RState.done (pyStr (Cache.get s.1 (nsControlKey ns))) else s.2 j)
  | RState.done _ => s

/-- An arbitrary interleaving of the n clients, as the scheduled order of
their atomic steps. -/
def rrun (n : Nat) (ns : String) (s : Cache × (Fin n → RState)) (sched : List (Fin n)) :
    Cache × (Fin n → RState) :=
  sched.foldl (rstep n ns) s

/-- Invariant of the concurrent first-access race: the control key is
absent or holds 1, any client whose get is pending has already seen its
add fail (so the key holds 1), and every finished client observed 1. -/
def rinv (n : Nat) (ns : String) (s : Cache × (Fin n → RState)) : Prop :=
  (Cache.get s.1 (nsControlKey ns) = none ∨ Cache.get s.1 (nsControlKey ns) = some "1") ∧
  (∀ i, s.2 i = RState.pending → Cache.get s.1 (nsControlKey ns) = some "1") ∧
  (∀ i v, s.2 i = RState.done v → v = "1")

lemma rinv_step (n : Nat) (ns : String) (s : Cache × (Fin n → RState))
    (hinv : rinv n ns s) (i : Fin n) : rinv n ns (rstep n ns s i) := by
  obtain ⟨h1, h2, h3⟩ := hinv
  cases hsi : s.2 i with
  | notStarted =>
    cases hf : Cache.findE s.1 (nsControlKey ns) with
    | none =>
      have hr : rstep n ns s i =
          (Cache.setE s.1 (nsControlKey ns) ⟨"1", 0, 0⟩,
           fun j => if j = i then RState.done "1" else s.2 j) := by
        simp [rstep, hsi, Cache.add, hf]
      rw [hr]
      refine ⟨Or.inr ?_, ?_, ?_⟩
      · show Cache.get (Cache.setE s.1 (nsControlKey ns) ⟨"1", 0, 0⟩) (nsControlKey ns)
            = some "1"
        exact get_setE_same _ _ _
      · intro j hj
        have hj2 : (if j = i then RState.done "1" else s.2 j) = RState.pending := hj
        by_cases hji : j = i
        · rw [if_pos hji] at hj2
          exact absurd hj2 (by simp)
        · rw [if_neg hji] at hj2
          have hh := h2 j hj2
          rw [Cache.get, hf] at hh
          exact absurd hh (by simp)
      · intro j v hj
        have hj2 : (if j = i then RState.done "1" else s.2 j) = RState.done v := hj
        by_cases hji : j = i
        · rw [if_pos hji] at hj2
          injection hj2 with hv
          exact hv.symm
        · rw [if_neg hji] at hj2
          exact h3 j v hj2
    | some e =>
      have hr : rstep n ns s i =
          (s.1, fun j => if j = i then RState.pending else s.2 j) := by
        simp [rstep, hsi, Cache.add, hf]
      rw [hr]
      have hone : Cache.get s.1 (nsControlKey ns) = some "1" := by
        rcases h1 with hn | ho
        · rw [Cache.get, hf] at hn
          exact absurd hn (by simp)
        · exact ho
      refine ⟨Or.inr hone, fun j hj => hone, ?_⟩
      intro j v hj
      have hj2 : (if j = i then RState.pending else s.2 j) = RState.done v := hj
      by_cases hji : j = i
      · rw [if_pos hji] at hj2
        exact absurd hj2 (by simp)
      · rw [if_neg hji] at hj2
        exact h3 j v hj2
  | pending =>
    have hone := h2 i hsi
    have hr : rstep n ns s i =
        (s.1, fun j =>
          if j = i then RState.done (pyStr (Cache.get s.1 (nsControlKey ns)))
          else s.2 j) := by
      simp [rstep, hsi]
    rw [hr]
    refine ⟨h1, ?_, ?_⟩
    · intro j hj
      have hj2 :
          (if j = i then RState.done (pyStr (Cache.get s.1 (nsControlKey ns))) else s.2 j)
            = RState.pending := hj
      by_cases hji : j = i
      · rw [if_pos hji] at hj2
        exact absurd hj2 (by simp)
      · rw [if_neg hji] at hj2
        exact h2 j hj2
    · intro j v hj
      have hj2 :
          (if j = i then RState.done (pyStr (Cache.get s.1 (nsControlKey ns))) else s.2 j)
            = RState.done v := hj
      by_cases hji : j = i
      · rw [if_pos hji] at hj2
        injection hj2 with hv
        rw [← hv, hone]
        rfl
      · rw [if_neg hji] at hj2
        exact h3 j v hj2
  | done v =>
    have hr : rstep n ns s i = s := by
      simp [rstep, hsi]
    rw [hr]
    exact ⟨h1, h2, h3⟩

lemma rinv_run (n : Nat) (ns : String) (sched : List (Fin n)) :
    ∀ s, rinv n ns s → rinv n ns (rrun n ns s sched) := by
  induction sched with
  | nil => exact fun s h => h
  | cons i sched ih => exact fun s h => ih (rstep n ns s i) (rinv_step n ns s h i)

/-- C9: for any number of clients, any interleaving of their atomic steps
and any fresh namespace (control key absent), every client that completes
its concurrent resolveKey observed version 1 — the add's atomicity makes
one creator win and every loser read back 1 — and hence every client
derives the same effective key for the same logical key. -/
theorem c9_concurrent_creation (n : Nat) (ns k : String) (c0 : Cache)
    (h0 : Cache.get c0 (nsControlKey ns) = none) (sched : List (Fin n)) :
    ∀ i v, (rrun n ns (c0, fun _ => RState.notStarted) sched).2 i = RState.done v →
      v = "1" ∧ effKey ns v k = effKey ns "1" k := by
  have hinv0 : rinv n ns (c0, fun _ => RState.notStarted) := by
    refine ⟨Or.inl h0, ?_, ?_⟩
    · intro i hi
      exact absurd hi (by simp)
    · intro i v hi
      exact absurd hi (by simp)
  have hinv := rinv_run n ns sched _ hinv0
  intro i v hd
  have hv := hinv.2.2 i v hd
  exact ⟨hv, by rw [hv]⟩

/-- C9 witness: two clients racing on the fresh namespace a under the
schedule 0, 1, 1 — client 0 wins the add, client 1 fails it and reads the
counter back — with both finishing on version 1. -/
theorem c9_witness : ("1" : String) = "1" ∧ effKey "a" "1" "x" = effKey "a" "1" "x" :=
  c9_concurrent_creation 2 "a" "x" [] (by decide) [0, 1, 1] 1 "1" (by decide)
